import Mathlib

/-!
Verification of the traversal-and-collection engine of `main.py`:
platform-aware root selection, the directory prune predicate
`should_skip_dir`, the recursive walk collecting files whose name ends in
`.env`, and the per-file content reader with isolated failure handling.

Strings are modelled by Lean `String`; the Python string operations used by
the code (`lower`, `startswith`, `endswith`, `split`, substring `in`,
`os.path.basename`, `os.path.join`) are given explicit executable
definitions below, faithful to their behaviour on the inputs the program
manipulates (ASCII paths).
-/

/-- The two platform families distinguished by the code: it only ever tests
`platform.system() == "Windows"`, every other answer takes the same branch. -/
inductive OSKind where
  | windows
  | posix
deriving DecidableEq

/-- Models `str.lower` for one character (ASCII range, the only characters
appearing in the denylists and markers). -/
def lowerChar (c : Char) : Char :=
  match c with
  | 'A' => 'a' | 'B' => 'b' | 'C' => 'c' | 'D' => 'd' | 'E' => 'e' | 'F' => 'f'
  | 'G' => 'g' | 'H' => 'h' | 'I' => 'i' | 'J' => 'j' | 'K' => 'k' | 'L' => 'l'
  | 'M' => 'm' | 'N' => 'n' | 'O' => 'o' | 'P' => 'p' | 'Q' => 'q' | 'R' => 'r'
  | 'S' => 's' | 'T' => 't' | 'U' => 'u' | 'V' => 'v' | 'W' => 'w' | 'X' => 'x'
  | 'Y' => 'y' | 'Z' => 'z'
  | c => c

/-- Models `str.lower`. -/
def strLower (s : String) : String :=
  String.mk (s.data.map lowerChar)

/-- Models `str.startswith`. -/
def strStartsWith (s pat : String) : Bool :=
  pat.data.isPrefixOf s.data

/-- Models `str.endswith`. -/
def strEndsWith (s pat : String) : Bool :=
  pat.data.isSuffixOf s.data

/-- Does `pat` occur as a contiguous sublist of `l`?  (Helper for Python's
substring operator `in`.) -/
def listHasInfix (pat : List Char) : List Char → Bool
  | [] => pat.isEmpty
  | c :: rest => pat.isPrefixOf (c :: rest) || listHasInfix pat rest

/-- Models Python's substring test `pat in s`. -/
def strContainsSub (s pat : String) : Bool :=
  listHasInfix pat.data s.data

/-- Split a character list at every occurrence of `sep` (the separator is
dropped; empty pieces are kept, as in Python `str.split(sep)`). -/
def splitCharL (sep : Char) : List Char → List (List Char)
  | [] => [[]]
  | c :: rest =>
    if c = sep then [] :: splitCharL sep rest
    else
      match splitCharL sep rest with
      | [] => [[c]]
      | grp :: grps => (c :: grp) :: grps

/-- Models `str.split(sep)` for a one-character separator (`os.sep`). -/
def splitChar (sep : Char) (s : String) : List String :=
  (splitCharL sep s.data).map String.mk

/-- The text after the last occurrence of any character of `seps`. -/
def lastSegAfter (seps : List Char) (s : String) : String :=
  String.mk ((s.data.reverse.takeWhile (fun c => !seps.contains c)).reverse)

/-- Models `ntpath.splitdrive`'s removal of a `X:` drive prefix (UNC device
prefixes are not modelled; they do not occur in the verified properties). -/
def stripDrive (s : String) : String :=
  match s.data with
  | c0 :: c1 :: rest => if c1 = ':' then String.mk rest else String.mk (c0 :: c1 :: rest)
  | _ => s

/-- Models `os.path.basename`: on Windows (`ntpath`) the drive prefix is
removed and both `\` and `/` separate; on posix only `/` does. -/
def osBasename (ost : OSKind) (s : String) : String :=
  match ost with
  | OSKind.windows => lastSegAfter ['\\', '/'] (stripDrive s)
  | OSKind.posix => lastSegAfter ['/'] s

/-- Models `os.path.join p name` for a relative `name` (the only use in the
program: `name` comes from a directory listing, so it is never absolute). -/
def joinPath (ost : OSKind) (p name : String) : String :=
  match ost with
  | OSKind.posix =>
    if p = "" then name
    else if strEndsWith p "/" then p ++ name
    else p ++ "/" ++ name
  | OSKind.windows =>
    if p = "" then name
    else if strEndsWith p "\\" || strEndsWith p "/" || strEndsWith p ":" then p ++ name
    else p ++ "\\" ++ name

/-- The Windows denylist literal of `locate_env_files` (a Python set; only
membership is used, so a list is a faithful model). -/
def windows_system_dirs : List String :=
  ["windows", "program files", "program files (x86)", "programdata",
   "system32", "syswow64", "winsxs", "$recycle.bin", "system volume information",
   "recovery", "boot", "perflogs", "msocache", "intel", "amd", "nvidia"]

/-- The non-Windows denylist literal of `locate_env_files`. -/
def unix_system_dirs : List String :=
  ["proc", "sys", "dev", "run", "boot", "lost+found", "snap", "var/cache",
   "var/log", "var/tmp", "tmp", "usr/bin", "usr/lib", "usr/lib64"]

/-- The denylist selected by the `os_type == "Windows"` test. -/
def system_dirs (ost : OSKind) : List String :=
  match ost with
  | OSKind.windows => windows_system_dirs
  | OSKind.posix => unix_system_dirs

/-- The prune predicate `should_skip_dir` of `main.py` (lines 47-68),
translated clause by clause: marker test on the lowercased basename, exact
denylist membership of the lowercased basename, and on Windows the
second-path-segment test (`dir_path_str.split(os.sep)`) plus the scan for a
denylist entry between separators or after a final separator in the
lowercased full path.  `os.sep` is `\` on Windows. -/
def should_skip_dir (ost : OSKind) (dir_path_str : String) : Bool :=
  if strStartsWith (strLower (osBasename ost dir_path_str)) "."
     || strStartsWith (strLower (osBasename ost dir_path_str)) "$" then true
  else if (system_dirs ost).contains (strLower (osBasename ost dir_path_str)) then true
  else if ost = OSKind.windows then
    if decide (2 ≤ (splitChar '\\' dir_path_str).length)
       && windows_system_dirs.contains (strLower ((splitChar '\\' dir_path_str).getD 1 "")) then true
    else windows_system_dirs.any (fun sys_dir =>
      strContainsSub (strLower dir_path_str) ("\\" ++ sys_dir ++ "\\")
      || strEndsWith (strLower dir_path_str) ("\\" ++ sys_dir))
  else false

/-!
The filesystem model. A directory's readable contents are a finite sequence
of entries, each a file or a subdirectory with its own contents.  `os.walk`
separates each listing into `dirnames` and `filenames` and (by default)
silently skips unreadable children, so a tree value represents exactly the
readable portion the walk can observe.  The walk's emission order within one
listing (files of a directory before the contents of its subdirectories) is
not preserved by this interleaved encoding; no verified property depends on
emission order.
-/

/-- Readable contents of one directory: a sequence of file entries and
subdirectory entries. -/
inductive FS where
  | done : FS
  | file (name : String) (rest : FS) : FS
  | dir (name : String) (contents : FS) (rest : FS) : FS
deriving DecidableEq

/-- Every file under `base` (full joined paths), pruning ignored. -/
def allFilesUnder (ost : OSKind) (base : String) : FS → List String
  | FS.done => []
  | FS.file f rest => joinPath ost base f :: allFilesUnder ost base rest
  | FS.dir d c rest => allFilesUnder ost (joinPath ost base d) c ++ allFilesUnder ost base rest

/-- The walk of `locate_env_files` (lines 91-98) over one root: child
directories for which `should_skip_dir` holds on their joined path are
removed from `dirnames` before descent, and every filename ending in the
case-sensitive literal `.env` is appended with its full path. -/
def walkCollect (ost : OSKind) (base : String) : FS → List String
  | FS.done => []
  | FS.file f rest =>
    (if strEndsWith f ".env" then [joinPath ost base f] else []) ++ walkCollect ost base rest
  | FS.dir d c rest =>
    (if should_skip_dir ost (joinPath ost base d) then []
     else walkCollect ost (joinPath ost base d) c) ++ walkCollect ost base rest

/-- The 26 probe letters `string.ascii_uppercase`. -/
def ascii_uppercase : List Char := "ABCDEFGHIJKLMNOPQRSTUVWXYZ".data

/-- Windows root probing (lines 74-78): one root `X:\` for every drive letter
whose path exists; `driveEx` models `os.path.exists`. -/
def drive_roots (driveEx : String → Bool) : List String :=
  ascii_uppercase.filterMap (fun c =>
    if driveEx (String.mk [c] ++ ":\\") then some (String.mk [c] ++ ":\\") else none)

/-- Platform root selection (lines 71-81): all existing drives on Windows,
the relative current-directory path `.` otherwise. -/
def select_root_dirs (ost : OSKind) (driveEx : String → Bool) : List String :=
  match ost with
  | OSKind.windows => drive_roots driveEx
  | OSKind.posix => ["."]

/-- Net root list after the override test (lines 83-85).  Python's
`if directory:` is truthiness: `None` and the empty string both leave the
platform roots in place. -/
def computeRoots (ost : OSKind) (driveEx : String → Bool) (directory : Option String) : List String :=
  match directory with
  | some d => if d ≠ "" then [d] else select_root_dirs ost driveEx
  | none => select_root_dirs ost driveEx

/-- The per-root loop (lines 88-102): each root is walked independently;
`lookup r = none` models the enumeration of root `r` raising
(`PermissionError`/`OSError`), which the `except` branch turns into an empty
contribution followed by `continue`. -/
def searchRoots (ost : OSKind) (root_dirs : List String) (lookup : String → Option FS) : List String :=
  (root_dirs.map (fun r =>
    match lookup r with
    | none => []
    | some t => walkCollect ost r t)).flatten

/-- `locate_env_files` end to end: root selection, override, walk. -/
def locate_env_files (ost : OSKind) (directory : Option String)
    (driveEx : String → Bool) (lookup : String → Option FS) : List String :=
  searchRoots ost (computeRoots ost driveEx directory) lookup

/-- Outcome of `Path(f).read_text()`: the content, or the exception's
message. -/
inductive ReadOutcome where
  | ok (content : String) : ReadOutcome
  | failed (msg : String) : ReadOutcome
deriving DecidableEq

/-- Python dict assignment `m[k] = v` on a mapping modelled as an insertion-
ordered association list: overwrite an existing key in place, else append. -/
def dictSet (m : List (String × String)) (k v : String) : List (String × String) :=
  if m.any (fun kv => kv.1 == k) then
    m.map (fun kv => if kv.1 == k then (k, v) else kv)
  else m ++ [(k, v)]

/-- `read_env_files` (lines 105-114): one read attempt per listed path; a
failure stores `"Error reading file: "` plus the exception text under the
same key instead of aborting. -/
def read_env_files (readFile : String → ReadOutcome) (env_files : List String) : List (String × String) :=
  env_files.foldl (fun report_data env_file =>
    dictSet report_data env_file
      (match readFile env_file with
       | ReadOutcome.ok content => content
       | ReadOutcome.failed msg => "Error reading file: " ++ msg)) []

/-- The single outcome the reader stores for one path: the content on
success, the prefixed error text on failure. -/
def readOutcomeText (readFile : String → ReadOutcome) (f : String) : String :=
  match readFile f with
  | ReadOutcome.ok content => content
  | ReadOutcome.failed msg => "Error reading file: " ++ msg

/-- Modelled from the claim wording of the prune characterisation: marker on
the lowercased final segment, exact denylist membership of the lowercased
final segment, and — multi-volume family only — second path segment in the
denylist, or some denylist entry occurring as a complete path-separator-
delimited segment anywhere in the lowercased full path. -/
def skipSpecClaim (ost : OSKind) (p : String) : Bool :=
  strStartsWith (strLower (osBasename ost p)) "."
  || strStartsWith (strLower (osBasename ost p)) "$"
  || (system_dirs ost).contains (strLower (osBasename ost p))
  || (match ost with
      | OSKind.windows =>
        (decide (2 ≤ (splitChar '\\' p).length)
         && windows_system_dirs.contains (strLower ((splitChar '\\' p).getD 1 "")))
        || windows_system_dirs.any (fun e => (splitChar '\\' (strLower p)).contains e)
      | OSKind.posix => false)

/-- The amended prune characterisation: as `skipSpecClaim`, except that the
last clause requires the denylist entry to occur with a path separator
immediately before it, either followed by another separator or ending the
path — an entry standing as the first segment of a relative path does not
prune. -/
def skipSpecAmended (ost : OSKind) (p : String) : Bool :=
  strStartsWith (strLower (osBasename ost p)) "."
  || strStartsWith (strLower (osBasename ost p)) "$"
  || (system_dirs ost).contains (strLower (osBasename ost p))
  || (match ost with
      | OSKind.windows =>
        (decide (2 ≤ (splitChar '\\' p).length)
         && windows_system_dirs.contains (strLower ((splitChar '\\' p).getD 1 "")))
        || windows_system_dirs.any (fun e =>
             strContainsSub (strLower p) ("\\" ++ e ++ "\\")
             || strEndsWith (strLower p) ("\\" ++ e))
      | OSKind.posix => false)

/-- `AnyFile ost base t q f`: somewhere in the tree `t` rooted at `base`
there is a directory with full path `q` containing a file entry named `f`
(pruning ignored; `q = base` for files listed directly at the root). -/
inductive AnyFile (ost : OSKind) : String → FS → String → String → Prop where
  | here {base f rest} : AnyFile ost base (FS.file f rest) base f
  | skipFile {base g rest q f} :
      AnyFile ost base rest q f → AnyFile ost base (FS.file g rest) q f
  | skipDir {base d c rest q f} :
      AnyFile ost base rest q f → AnyFile ost base (FS.dir d c rest) q f
  | enter {base d c rest q f} :
      AnyFile ost (joinPath ost base d) c q f → AnyFile ost base (FS.dir d c rest) q f

/-- `VisFile ost base t q f`: as `AnyFile`, but every directory entered on
the way from the root is non-pruned, i.e. the file is visible to the walk. -/
inductive VisFile (ost : OSKind) : String → FS → String → String → Prop where
  | here {base f rest} : VisFile ost base (FS.file f rest) base f
  | skipFile {base g rest q f} :
      VisFile ost base rest q f → VisFile ost base (FS.file g rest) q f
  | skipDir {base d c rest q f} :
      VisFile ost base rest q f → VisFile ost base (FS.dir d c rest) q f
  | enter {base d c rest q f} :
      should_skip_dir ost (joinPath ost base d) = false →
      VisFile ost (joinPath ost base d) c q f → VisFile ost base (FS.dir d c rest) q f

/-- `AnyDir ost base t q sub`: somewhere in the tree `t` rooted at `base`
there is a directory entry whose full path is `q` and whose contents are
`sub` — a strict descendant of the root. -/
inductive AnyDir (ost : OSKind) : String → FS → String → FS → Prop where
  | here {base d c rest} : AnyDir ost base (FS.dir d c rest) (joinPath ost base d) c
  | thereFile {base g rest q sub} :
      AnyDir ost base rest q sub → AnyDir ost base (FS.file g rest) q sub
  | thereDir {base d c rest q sub} :
      AnyDir ost base rest q sub → AnyDir ost base (FS.dir d c rest) q sub
  | inside {base d c rest q sub} :
      AnyDir ost (joinPath ost base d) c q sub → AnyDir ost base (FS.dir d c rest) q sub

/-!  Helper lemmas. -/

theorem lowerChar_eq_slash {c : Char} (h : lowerChar c = '/') : c = '/' := by
  unfold lowerChar at h
  split at h <;> first | exact h | exact absurd h (by decide)

theorem lastSegAfter_no_sep {seps : List Char} {s : String} {c : Char}
    (hc : c ∈ seps) : c ∉ (lastSegAfter seps s).data := by
  intro hmem
  simp only [lastSegAfter, List.mem_reverse] at hmem
  have h2 := List.mem_takeWhile_imp hmem
  simp only [Bool.not_eq_true', List.contains] at h2
  rw [List.elem_eq_mem] at h2
  simp only [decide_eq_false_iff_not] at h2
  exact h2 hc

theorem skip_eq_amended (ost : OSKind) (p : String) :
    should_skip_dir ost p = skipSpecAmended ost p := by
  cases ost with
  | posix =>
    simp only [should_skip_dir, skipSpecAmended]
    cases h1 : strStartsWith (strLower (osBasename OSKind.posix p)) "." <;>
    cases h2 : strStartsWith (strLower (osBasename OSKind.posix p)) "$" <;>
    cases h3 : (system_dirs OSKind.posix).contains (strLower (osBasename OSKind.posix p)) <;>
    simp [h1, h2, h3]
  | windows =>
    simp only [should_skip_dir, skipSpecAmended]
    cases h1 : strStartsWith (strLower (osBasename OSKind.windows p)) "." <;>
    cases h2 : strStartsWith (strLower (osBasename OSKind.windows p)) "$" <;>
    cases h3 : (system_dirs OSKind.windows).contains (strLower (osBasename OSKind.windows p)) <;>
    cases h4 : (decide (2 ≤ (splitChar '\\' p).length)
      && windows_system_dirs.contains (strLower ((splitChar '\\' p).getD 1 ""))) <;>
    simp [h1, h2, h3, h4]

theorem wc_sublist_afu (ost : OSKind) (t : FS) :
    ∀ base, (walkCollect ost base t).Sublist (allFilesUnder ost base t) := by
  induction t with
  | done => intro base; simp [walkCollect, allFilesUnder]
  | file f rest ih =>
    intro base
    simp only [walkCollect, allFilesUnder]
    by_cases h : strEndsWith f ".env" = true
    · rw [if_pos h]
      exact (ih base).cons₂ _
    · rw [if_neg h]
      exact (ih base).trans (List.sublist_cons_self _ _)
  | dir d c rest ihc ihrest =>
    intro base
    simp only [walkCollect, allFilesUnder]
    by_cases h : should_skip_dir ost (joinPath ost base d) = true
    · rw [if_pos h]
      exact (List.nil_sublist _).append (ihrest base)
    · rw [if_neg h]
      exact (ihc _).append (ihrest base)

theorem anyFile_mem_afu {ost : OSKind} : ∀ {base t q f},
    AnyFile ost base t q f → joinPath ost q f ∈ allFilesUnder ost base t := by
  intro base t q f h
  induction h with
  | here => exact List.mem_cons_self _ _
  | skipFile h ih => exact List.mem_cons_of_mem _ ih
  | skipDir h ih => exact List.mem_append_right _ ih
  | enter h ih => exact List.mem_append_left _ ih

theorem visFile_anyFile {ost : OSKind} {base t q f}
    (h : VisFile ost base t q f) : AnyFile ost base t q f := by
  induction h with
  | here => exact AnyFile.here
  | skipFile h ih => exact AnyFile.skipFile ih
  | skipDir h ih => exact AnyFile.skipDir ih
  | enter hs h ih => exact AnyFile.enter ih

theorem anyDir_afu_subset {ost : OSKind} {base t q sub}
    (h : AnyDir ost base t q sub) :
    ∀ {p}, p ∈ allFilesUnder ost q sub → p ∈ allFilesUnder ost base t := by
  induction h with
  | here => exact fun hp => List.mem_append_left _ hp
  | thereFile h ih => exact fun hp => List.mem_cons_of_mem _ (ih hp)
  | thereDir h ih => exact fun hp => List.mem_append_right _ (ih hp)
  | inside h ih => exact fun hp => List.mem_append_left _ (ih hp)

theorem visFile_mem_wc {ost : OSKind} {base t q f}
    (h : VisFile ost base t q f) (hsuf : strEndsWith f ".env" = true) :
    joinPath ost q f ∈ walkCollect ost base t := by
  induction h with
  | here => simp [walkCollect, hsuf]
  | skipFile h ih => exact List.mem_append_right _ (ih hsuf)
  | skipDir h ih => exact List.mem_append_right _ (ih hsuf)
  | enter hs h ih =>
    simp only [walkCollect, hs]
    simp only [Bool.false_eq_true, if_false]
    exact List.mem_append_left _ (ih hsuf)

theorem wc_mem_visFile {ost : OSKind} (t : FS) :
    ∀ base p, p ∈ walkCollect ost base t →
      ∃ q f, VisFile ost base t q f ∧ strEndsWith f ".env" = true ∧ p = joinPath ost q f := by
  induction t with
  | done => intro base p hp; simp [walkCollect] at hp
  | file f rest ih =>
    intro base p hp
    simp only [walkCollect] at hp
    rcases List.mem_append.mp hp with hl | hr
    · by_cases h : strEndsWith f ".env" = true
      · rw [if_pos h] at hl
        rcases List.mem_singleton.mp hl with rfl
        exact ⟨base, f, VisFile.here, h, rfl⟩
      · rw [if_neg h] at hl
        exact absurd hl (List.not_mem_nil _)
    · obtain ⟨q, g, hv, hs, rfl⟩ := ih base p hr
      exact ⟨q, g, VisFile.skipFile hv, hs, rfl⟩
  | dir d c rest ihc ihrest =>
    intro base p hp
    simp only [walkCollect] at hp
    rcases List.mem_append.mp hp with hl | hr
    · by_cases h : should_skip_dir ost (joinPath ost base d) = true
      · rw [if_pos h] at hl
        exact absurd hl (List.not_mem_nil _)
      · rw [if_neg h] at hl
        obtain ⟨q, g, hv, hs, rfl⟩ := ihc _ p hl
        exact ⟨q, g, VisFile.enter (by simpa using h) hv, hs, rfl⟩
    · obtain ⟨q, g, hv, hs, rfl⟩ := ihrest base p hr
      exact ⟨q, g, VisFile.skipDir hv, hs, rfl⟩

theorem anyFile_unique {ost : OSKind} {base t q f} (h1 : AnyFile ost base t q f) :
    ∀ {q' f'}, (allFilesUnder ost base t).Nodup → AnyFile ost base t q' f' →
      joinPath ost q f = joinPath ost q' f' → q = q' ∧ f = f' := by
  induction h1 with
  | here =>
    intro q' f' hnd h2 heq
    cases h2 with
    | here => exact ⟨rfl, rfl⟩
    | skipFile h2' =>
      have hm := anyFile_mem_afu h2'
      rw [← heq] at hm
      exact absurd hm (List.nodup_cons.mp hnd).1
  | skipFile h1' ih =>
    intro q' f' hnd h2 heq
    cases h2 with
    | here =>
      have hm := anyFile_mem_afu h1'
      rw [heq] at hm
      exact absurd hm (List.nodup_cons.mp hnd).1
    | skipFile h2' =>
      exact ih (List.nodup_cons.mp hnd).2 h2' heq
  | skipDir h1' ih =>
    intro q' f' hnd h2 heq
    cases h2 with
    | skipDir h2' =>
      exact ih (List.nodup_append.mp hnd).2.1 h2' heq
    | enter h2' =>
      have hm1 := anyFile_mem_afu h1'
      have hm2 := anyFile_mem_afu h2'
      rw [← heq] at hm2
      exact absurd hm1 (fun hm1' => (List.disjoint_of_nodup_append hnd) hm2 hm1')
  | enter h1' ih =>
    intro q' f' hnd h2 heq
    cases h2 with
    | skipDir h2' =>
      have hm1 := anyFile_mem_afu h1'
      have hm2 := anyFile_mem_afu h2'
      rw [← heq] at hm2
      exact absurd hm2 ((List.disjoint_of_nodup_append hnd) hm1)
    | enter h2' =>
      exact ih (List.nodup_append.mp hnd).1 h2' heq

theorem pruned_subtree_excluded {ost : OSKind} {base t q sub}
    (hdir : AnyDir ost base t q sub) :
    ∀ {p}, (allFilesUnder ost base t).Nodup → should_skip_dir ost q = true →
      p ∈ allFilesUnder ost q sub → p ∉ walkCollect ost base t := by
  induction hdir with
  | here =>
    intro p hnd hskip hp hmem
    simp only [walkCollect, hskip, if_true] at hmem
    simp only [List.nil_append] at hmem
    have hm2 := (wc_sublist_afu ost _ _).subset hmem
    exact (List.disjoint_of_nodup_append hnd) hp hm2
  | thereFile h ih =>
    intro p hnd hskip hp hmem
    simp only [walkCollect] at hmem
    rcases List.mem_append.mp hmem with hl | hr
    · split at hl
      · rcases List.mem_singleton.mp hl with rfl
        exact (List.nodup_cons.mp hnd).1 (anyDir_afu_subset h hp)
      · exact (List.not_mem_nil _) hl
    · exact ih (List.nodup_cons.mp hnd).2 hskip hp hr
  | thereDir h ih =>
    intro p hnd hskip hp hmem
    simp only [walkCollect] at hmem
    rcases List.mem_append.mp hmem with hl | hr
    · split at hl
      · exact (List.not_mem_nil _) hl
      · have hm1 := (wc_sublist_afu ost _ _).subset hl
        exact (List.disjoint_of_nodup_append hnd) hm1 (anyDir_afu_subset h hp)
    · exact ih (List.nodup_append.mp hnd).2.1 hskip hp hr
  | inside h ih =>
    intro p hnd hskip hp hmem
    simp only [walkCollect] at hmem
    rcases List.mem_append.mp hmem with hl | hr
    · split at hl
      · exact (List.not_mem_nil _) hl
      · exact ih (List.nodup_append.mp hnd).1 hskip hp hl
    · have hm2 := (wc_sublist_afu ost _ _).subset hr
      exact (List.disjoint_of_nodup_append hnd) (anyDir_afu_subset h hp) hm2


theorem dictSet_fresh {m : List (String × String)} {k v : String}
    (h : m.any (fun kv => kv.1 == k) = false) :
    dictSet m k v = m ++ [(k, v)] := by
  simp [dictSet, h]

theorem read_env_files_go (readFile : String → ReadOutcome) :
    ∀ (files : List String) (acc : List (String × String)),
      files.Nodup → (∀ f ∈ files, acc.any (fun kv => kv.1 == f) = false) →
      files.foldl (fun report_data env_file =>
          dictSet report_data env_file (readOutcomeText readFile env_file)) acc
        = acc ++ files.map (fun f => (f, readOutcomeText readFile f)) := by
  intro files
  induction files with
  | nil => intro acc h1 h2; simp
  | cons f fs ih =>
    intro acc hnd hfresh
    simp only [List.foldl_cons, List.map_cons]
    rw [dictSet_fresh (hfresh f (List.mem_cons_self f fs))]
    rw [ih (acc ++ [(f, readOutcomeText readFile f)]) (List.nodup_cons.mp hnd).2 ?fresh]
    · simp
    case fresh =>
      intro g hg
      rw [List.any_append]
      have h1 : acc.any (fun kv => kv.1 == g) = false :=
        hfresh g (List.mem_cons_of_mem f hg)
      have h2 : f ≠ g := fun hfg => (List.nodup_cons.mp hnd).1 (hfg ▸ hg)
      simp [h1, h2]

theorem read_env_files_foldl (readFile : String → ReadOutcome) (files : List String) :
    read_env_files readFile files
      = files.foldl (fun report_data env_file =>
          dictSet report_data env_file (readOutcomeText readFile env_file)) [] := rfl

/-!  The claims. -/

/-- C1, counterexample: the claim quantifies over every directory on which
the prune predicate holds, but a scan root is never tested by the predicate.
On the non-Windows default the single root is `.`, whose basename starts
with the hidden marker, so `should_skip_dir` holds on it — yet the walk
enumerates it and returns the file `./a.env` beneath it. -/
theorem C1_root_counterexample :
    should_skip_dir OSKind.posix "." = true
    ∧ "./a.env" ∈ allFilesUnder OSKind.posix "." (FS.file "a.env" FS.done)
    ∧ "./a.env" ∈ locate_env_files OSKind.posix none (fun _ => false)
        (fun r => if r = "." then some (FS.file "a.env" FS.done) else none) := by
  refine ⟨by decide, by decide, by decide⟩

/-- C1, amended: for every directory encountered as a child during the
traversal — every strict descendant of a scan root — on which the prune
predicate holds, the walk never descends (first conjunct: such a child
contributes nothing to the collection), and, provided the full file paths of
the root's tree are pairwise distinct, no file beneath such a directory
appears in the matched-file result (second conjunct).  Scan roots
themselves are enumerated without being tested by the predicate. -/
theorem C1_pruned_never_contributes :
    (∀ (ost : OSKind) (b d : String) (c rest : FS),
        should_skip_dir ost (joinPath ost b d) = true →
        walkCollect ost b (FS.dir d c rest) = walkCollect ost b rest)
    ∧ (∀ (ost : OSKind) (base : String) (t : FS) (q : String) (sub : FS) (p : String),
        (allFilesUnder ost base t).Nodup →
        AnyDir ost base t q sub →
        should_skip_dir ost q = true →
        p ∈ allFilesUnder ost q sub →
        p ∉ walkCollect ost base t) := by
  constructor
  · intro ost b d c rest h
    simp [walkCollect, h]
  · intro ost base t q sub p hnd hdir hskip hp
    exact pruned_subtree_excluded hdir hnd hskip hp

/-- C1, witness: under root `/r`, the subdirectory `tmp` is pruned, and its
file `/r/tmp/x.env` is not in the walk's result even though it matches. -/
theorem C1_pruned_never_contributes_wit :
    walkCollect OSKind.posix "/r" (FS.dir "tmp" (FS.file "x.env" FS.done) (FS.file "a.env" FS.done))
      = walkCollect OSKind.posix "/r" (FS.file "a.env" FS.done)
    ∧ "/r/tmp/x.env" ∉ walkCollect OSKind.posix "/r"
        (FS.dir "tmp" (FS.file "x.env" FS.done) (FS.file "a.env" FS.done)) :=
  ⟨C1_pruned_never_contributes.1 OSKind.posix "/r" "tmp" (FS.file "x.env" FS.done)
      (FS.file "a.env" FS.done) (by decide),
   C1_pruned_never_contributes.2 OSKind.posix "/r"
      (FS.dir "tmp" (FS.file "x.env" FS.done) (FS.file "a.env" FS.done))
      _ _ "/r/tmp/x.env" (by decide) AnyDir.here (by decide) (by decide)⟩

/-- C2: provided the full file paths of the root's tree are pairwise
distinct, the walk's result has no duplicate paths, and for every file
reachable from the root through non-pruned directories the result counts
its path exactly once when its name ends with the case-sensitive literal
`.env` and zero times otherwise. -/
theorem C2_match_completeness (ost : OSKind) (base : String) (t : FS)
    (hnd : (allFilesUnder ost base t).Nodup) :
    (walkCollect ost base t).Nodup
    ∧ ∀ q f, VisFile ost base t q f →
        (walkCollect ost base t).count (joinPath ost q f)
          = if strEndsWith f ".env" = true then 1 else 0 := by
  have hwc : (walkCollect ost base t).Nodup :=
    List.Nodup.sublist (wc_sublist_afu ost t base) hnd
  refine ⟨hwc, ?_⟩
  intro q f hv
  by_cases hsuf : strEndsWith f ".env" = true
  · rw [if_pos hsuf]
    exact List.count_eq_one_of_mem hwc (visFile_mem_wc hv hsuf)
  · rw [if_neg hsuf]
    refine List.count_eq_zero.mpr ?_
    intro hmem
    obtain ⟨q2, f2, hv2, hs2, heq⟩ := wc_mem_visFile t base _ hmem
    obtain ⟨hq, hf⟩ := anyFile_unique (visFile_anyFile hv) hnd (visFile_anyFile hv2) heq
    rw [hf] at hsuf
    exact hsuf hs2

/-- C2, witness: under root `/r` with files `a.env` and `b.txt`, the path
`/r/a.env` is counted exactly once. -/
theorem C2_match_completeness_wit :
    (walkCollect OSKind.posix "/r" (FS.file "a.env" (FS.file "b.txt" FS.done))).count
        (joinPath OSKind.posix "/r" "a.env")
      = if strEndsWith "a.env" ".env" = true then 1 else 0 :=
  (C2_match_completeness OSKind.posix "/r" (FS.file "a.env" (FS.file "b.txt" FS.done))
    (by decide)).2 "/r" "a.env" VisFile.here

/-- C3, counterexample: the claim promises M output entries for every list
of M input paths, but the output is a Python dict keyed by path, so the
duplicated input `["a", "a"]` (M = 2) produces a single entry. -/
theorem C3_duplicate_counterexample :
    (read_env_files (fun _ => ReadOutcome.ok "X") ["a", "a"]).length = 1
    ∧ (["a", "a"] : List String).length = 2 := by
  refine ⟨by decide, by decide⟩

/-- C3, amended: for every duplicate-free list of M matched file paths, the
reader's mapping is exactly one entry per input path in order — the content
on a successful read, or the descriptive error string on a failure — so it
has M entries and no input path is absent. -/
theorem C3_reader_total (readFile : String → ReadOutcome) (files : List String)
    (hnd : files.Nodup) :
    read_env_files readFile files
      = files.map (fun f => (f, readOutcomeText readFile f)) := by
  rw [read_env_files_foldl]
  rw [read_env_files_go readFile files [] hnd (fun f hf => rfl)]
  simp

/-- C3, witness: a readable and an unreadable file each yield one entry. -/
theorem C3_reader_total_wit :
    read_env_files
        (fun f => if f = "one.env" then ReadOutcome.ok "X=1" else ReadOutcome.failed "unreadable")
        ["one.env", "two.env"]
      = [("one.env", "X=1"), ("two.env", "Error reading file: unreadable")] :=
  (C3_reader_total
      (fun f => if f = "one.env" then ReadOutcome.ok "X=1" else ReadOutcome.failed "unreadable")
      ["one.env", "two.env"] (by decide)).trans (by decide)

/-- C4, counterexample: the claim's characterisation prunes whenever a
denylist entry occurs as a complete separator-delimited segment anywhere in
the path, but the code's scan requires a separator before the entry, so the
relative Windows path `windows\foo` — whose first segment is the denylist
entry `windows` — is pruned by the claimed predicate and not by the code. -/
theorem C4_segment_counterexample :
    skipSpecClaim OSKind.windows "windows\\foo" = true
    ∧ should_skip_dir OSKind.windows "windows\\foo" = false := by
  refine ⟨by decide, by decide⟩

/-- C4, amended: the prune predicate returns true exactly when the
lowercased final segment starts with `.` or `$`, or equals a denylist entry
of the platform family, or — multi-volume family only — the second path
segment (lowercased) is a denylist entry, or some denylist entry occurs
immediately after a path separator and is followed by another separator or
ends the path. -/
theorem C4_prune_characterisation (ost : OSKind) (p : String) :
    should_skip_dir ost p = skipSpecAmended ost p :=
  skip_eq_amended ost p

/-- C5: if root k of a scan-root list cannot be enumerated, the traversal
result is exactly the result for the root list with root k removed — every
match from the other N−1 roots is returned, unchanged. -/
theorem C5_root_fault_isolation (ost : OSKind) (rs : List String)
    (lookup : String → Option FS) (k : Nat) (hk : k < rs.length)
    (hfail : lookup (rs.get ⟨k, hk⟩) = none) :
    searchRoots ost rs lookup = searchRoots ost (rs.eraseIdx k) lookup := by
  induction rs generalizing k with
  | nil => exact absurd hk (Nat.not_lt_zero k)
  | cons r rest ih =>
    cases k with
    | zero =>
      simp only [List.get] at hfail
      simp [searchRoots, hfail, List.eraseIdx]
    | succ k2 =>
      have hk2 : k2 < rest.length := Nat.lt_of_succ_lt_succ hk
      have hfail2 : lookup (rest.get ⟨k2, hk2⟩) = none := hfail
      simp only [searchRoots, List.eraseIdx, List.map_cons, List.flatten_cons]
      have := ih k2 hk2 hfail2
      simp only [searchRoots] at this
      rw [this]

/-- C5, witness: with the middle of three roots unreadable, the sweep equals
the sweep over the two remaining roots. -/
theorem C5_root_fault_isolation_wit :
    searchRoots OSKind.posix ["r1", "bad", "r2"]
        (fun r => if r = "bad" then none else some (FS.file "a.env" FS.done))
      = searchRoots OSKind.posix (["r1", "bad", "r2"].eraseIdx 1)
        (fun r => if r = "bad" then none else some (FS.file "a.env" FS.done)) :=
  C5_root_fault_isolation OSKind.posix ["r1", "bad", "r2"]
    (fun r => if r = "bad" then none else some (FS.file "a.env" FS.done))
    1 (by decide) (by decide)

/-- C6, counterexample: `if directory:` is Python truthiness, so the
supplied override `""` is ignored and the platform roots are used instead
of the override. -/
theorem C6_empty_override_counterexample :
    computeRoots OSKind.posix (fun _ => false) (some "") = ["."]
    ∧ (["."] : List String) ≠ [""] := by
  refine ⟨by decide, by decide⟩

/-- C6, amended: for every supplied non-empty override directory, root
selection returns exactly that one directory, bypassing all platform
logic. -/
theorem C6_override_replaces_roots (ost : OSKind) (driveEx : String → Bool)
    (d : String) (hd : d ≠ "") :
    computeRoots ost driveEx (some d) = [d] := by
  simp [computeRoots, hd]

/-- C6, witness: the override `/custom` is the sole scan root. -/
theorem C6_override_replaces_roots_wit :
    computeRoots OSKind.posix (fun _ => false) (some "/custom") = ["/custom"] :=
  C6_override_replaces_roots OSKind.posix (fun _ => false) "/custom" (by decide)

/-- C7, counterexample: on the single-root family with no override the code
selects the relative current-directory path `.`, which is not the
conventional filesystem root `/` claimed. -/
theorem C7_root_counterexample :
    computeRoots OSKind.posix (fun _ => false) none = ["."]
    ∧ ("." : String) ≠ "/" := by
  refine ⟨by decide, by decide⟩

/-- C7, amended: on the single-root family with no override, root selection
returns exactly one scan root, the relative current-working-directory path
`.` (not the filesystem root). -/
theorem C7_single_root (driveEx : String → Bool) :
    computeRoots OSKind.posix driveEx none = ["."] := rfl

/-- C8: the traversal is a deterministic function of its inputs and of the
filesystem as observed — two runs whose drive probes agree and whose root
enumerations agree on the selected roots produce identical match lists,
with no dependence on run-to-run state. -/
theorem C8_deterministic (ost : OSKind) (dir : Option String)
    (dEx dEx2 : String → Bool) (lookup lookup2 : String → Option FS)
    (h1 : ∀ r, dEx r = dEx2 r)
    (h2 : ∀ r ∈ computeRoots ost dEx dir, lookup r = lookup2 r) :
    locate_env_files ost dir dEx lookup = locate_env_files ost dir dEx2 lookup2 := by
  have hsel : select_root_dirs ost dEx = select_root_dirs ost dEx2 := by
    cases ost with
    | posix => rfl
    | windows =>
      simp only [select_root_dirs, drive_roots]
      exact List.filterMap_congr (fun c _ => by rw [h1])
  have hroots : computeRoots ost dEx dir = computeRoots ost dEx2 dir := by
    cases dir with
    | none => exact hsel
    | some d =>
      simp only [computeRoots]
      split
      · rfl
      · exact hsel
  unfold locate_env_files searchRoots
  rw [← hroots]
  congr 1
  exact List.map_congr_left (fun r hr => by rw [h2 r hr])

/-- C8, witness: two filesystem views that agree on the selected root `.`
(but differ elsewhere) give the same sweep result. -/
theorem C8_deterministic_wit :
    locate_env_files OSKind.posix none (fun _ => false)
        (fun r => if r = "." then some (FS.file "a.env" FS.done) else none)
      = locate_env_files OSKind.posix none (fun _ => false)
        (fun _ => some (FS.file "a.env" FS.done)) :=
  C8_deterministic OSKind.posix none (fun _ => false) (fun _ => false)
    (fun r => if r = "." then some (FS.file "a.env" FS.done) else none)
    (fun _ => some (FS.file "a.env" FS.done))
    (fun _ => rfl) (by decide)

/-- C9: on the single-root family the prune decision is a function of the
directory's final path segment only (second conjunct), and a denylist entry
containing a path separator can never equal the lowercased final segment
(first conjunct), so a directory such as `/var/cache` is not pruned (third
conjunct). -/
theorem C9_sep_entries_never_prune :
    (∀ p e, e ∈ unix_system_dirs → '/' ∈ e.data →
        strLower (osBasename OSKind.posix p) ≠ e)
    ∧ (∀ p1 p2, osBasename OSKind.posix p1 = osBasename OSKind.posix p2 →
        should_skip_dir OSKind.posix p1 = should_skip_dir OSKind.posix p2)
    ∧ should_skip_dir OSKind.posix "/var/cache" = false := by
  refine ⟨?_, ?_, by decide⟩
  · intro p e he hsl heq
    have hm : '/' ∈ (strLower (osBasename OSKind.posix p)).data := by rw [heq]; exact hsl
    simp only [strLower] at hm
    obtain ⟨c, hc, hlc⟩ := List.mem_map.mp hm
    have hcs := lowerChar_eq_slash hlc
    subst hcs
    simp only [osBasename] at hc
    exact lastSegAfter_no_sep (by decide) hc
  · intro p1 p2 h
    rw [skip_eq_amended, skip_eq_amended]
    simp only [skipSpecAmended, h]

/-- C9, witness: no basename equals `var/cache`, and two paths with the same
final segment get the same prune decision. -/
theorem C9_sep_entries_never_prune_wit :
    strLower (osBasename OSKind.posix "/a/var/cache") ≠ "var/cache"
    ∧ should_skip_dir OSKind.posix "/x/proc" = should_skip_dir OSKind.posix "/y/proc" :=
  ⟨C9_sep_entries_never_prune.1 "/a/var/cache" "var/cache" (by decide) (by decide),
   C9_sep_entries_never_prune.2.1 "/x/proc" "/y/proc" (by decide)⟩

/-- C10: the hidden/privileged marker rule applies only to directories: a
file whose name starts with `.` or `$` but ends with `.env` (including a
file literally named `.env`) is collected whenever its parent directory is
reached by the walk. -/
theorem C10_marker_files_collected (ost : OSKind) (base : String) (t : FS)
    (q f : String)
    (_hmark : strStartsWith f "." = true ∨ strStartsWith f "$" = true)
    (hsuf : strEndsWith f ".env" = true)
    (hvis : VisFile ost base t q f) :
    joinPath ost q f ∈ walkCollect ost base t :=
  visFile_mem_wc hvis hsuf

/-- C10, witness: the file literally named `.env` at the root is collected. -/
theorem C10_marker_files_collected_wit :
    joinPath OSKind.posix "/r" ".env" ∈ walkCollect OSKind.posix "/r" (FS.file ".env" FS.done) :=
  C10_marker_files_collected OSKind.posix "/r" (FS.file ".env" FS.done) "/r" ".env"
    (Or.inl (by decide)) (by decide) VisFile.here
